import Mathlib

/-!
Verification of `FileImporterDataiku.py` (class `FileImporter`).

The Python source is shallowly embedded below.  Pure helpers become Lean
functions; the mutable `result` dictionary becomes an association list with
Python-dict insertion semantics (update in place when the key exists,
append otherwise); exceptions become `Except` values; pandas DataFrames
become a `Frame` structure of named columns and rows of cells.
-/

/-- Python exceptions raised by the importer, by kind. -/
inductive PyErr where
  | nameError      -- UnboundLocalError / NameError: local used before assignment
  | fileNotFound   -- FileNotFoundError("No file found matching the specified name")
  | attrError      -- AttributeError (e.g. None.startswith)
  | valueError     -- ValueError (validation failures, pd.concat of no objects)
deriving DecidableEq, Repr

deriving instance DecidableEq for Except

/-- Substring test on character lists: does `p` occur contiguously in the
second list?  Embeds Python's `p in s` for strings. -/
def listHasInfix (p : List Char) : List Char → Bool
  | [] => p.isEmpty
  | c :: rest => p.isPrefixOf (c :: rest) || listHasInfix p rest

/-- Python `file_name in file` (substring containment on strings). -/
def strContains (pat s : String) : Bool := listHasInfix pat.data s.data

/-- Python `s.startswith(pre)` (prefix test on the character sequences). -/
def strStarts (s pre : String) : Bool := pre.data.isPrefixOf s.data

/-- Python truthiness of the `subfolder` argument at line 575/584 of the
source: `None` and the empty string are falsy. -/
def subActive : Option String → Bool
  | none => false
  | some s => !(s == "")

/-- Lines 574-591 of `FileImporter.import_file`: computation of the list
`files` of candidate paths.  In the `exact_match`-with-subfolder branch the
source's list comprehension iterates over the local variable `files` before
it is ever assigned (`for file in files`), so Python raises
`UnboundLocalError`; that branch is embedded as an error. -/
def codeCandidates (exact : Bool) (sub : Option String) (pat : String)
    (paths : List String) : Except PyErr (List String) :=
  if exact then
    if subActive sub then Except.error PyErr.nameError
    else Except.ok (paths.filter (fun p => pat == p))
  else
    match sub with
    | some s =>
        if s == "" then Except.ok (paths.filter (fun p => strContains pat p))
        else Except.ok (paths.filter (fun p => strStarts p s && strContains pat p))
    | none => Except.ok (paths.filter (fun p => strContains pat p))

/-- Python-dict assignment `result[k] = v`: overwrite in place when the key
is present, append otherwise (insertion order preserved). -/
def dictInsert {υ : Type} (m : List (String × υ)) (k : String) (v : υ) :
    List (String × υ) :=
  if m.any (fun p => p.1 == k) then
    m.map (fun p => if p.1 == k then (k, v) else p)
  else m ++ [(k, v)]

/-- One step of the latest-file scan (lines 599-610).  The accumulator is
`none` for the initial `datetime.min` sentinel, which every real
(non-negative milliseconds) timestamp exceeds; a candidate replaces the
current best only when its modification time is strictly greater, so the
first maximum in listing order wins. -/
def selStep (mt : String → Nat) (acc : Option String) (f : String) :
    Option String :=
  match acc with
  | none => some f
  | some g => if mt g < mt f then some f else acc

/-- The latest-file scan over the candidate list, in listing order. -/
def selectLatest (mt : String → Nat) (files : List String) : Option String :=
  files.foldl (selStep mt) none

/-- Recursion of `selectLatest` after the first candidate has seeded the
accumulator. -/
def selLoop (mt : String → Nat) (g : String) : List String → String
  | [] => g
  | f :: rest => selLoop mt (if mt g < mt f then f else g) rest

/-- Lines 626-641: the non-latest loop storing every candidate under key
`f"{file_name}_{counter}"` with the counter starting at `c`. -/
def importLoop {υ : Type} (download : String → υ) (pat : String) :
    List String → Nat → List (String × υ) → List (String × υ)
  | [], _, result => result
  | f :: rest, c, result =>
      importLoop download pat rest (c + 1)
        (dictInsert result (pat ++ "_" ++ toString c) (download f))

/-- `FileImporter.import_file` (lines 538-641).  `mt` is the folder's
`lastModified` metadata in milliseconds, `download` the (abstract, always
succeeding) fetch-and-parse of one path.  Returns the truthiness of the
Python return value together with the updated result mapping. -/
def importFile {υ : Type} (mt : String → Nat) (download : String → υ)
    (paths : List String) (pat : String) (sub : Option String)
    (exact fileChecker latestMatch : Bool)
    (result : List (String × υ)) : Except PyErr (Bool × List (String × υ)) :=
  match codeCandidates exact sub pat paths with
  | Except.error e => Except.error e
  | Except.ok files =>
    if files.isEmpty then
      if fileChecker then Except.error PyErr.fileNotFound
      else Except.ok (false, result)
    else if latestMatch then
      match selectLatest mt files with
      | some latest => Except.ok (true, dictInsert result pat (download latest))
      | none => Except.ok (false, result)
    else
      Except.ok (true, importLoop download pat files 0 result)

/-- Python `list.remove`: drop the first occurrence (only invoked by the
orchestrator on names known to be present). -/
def removeFirst : List String → String → List String
  | [], _ => []
  | x :: xs, y => if x == y then xs else x :: removeFirst xs y

/-- Lines 282-315 of `_import_files_without_concatenation`: iterate the
(name, subfolder) tasks in caller order over the shared result mapping,
removing a name from `ficheros_no_encontrados` when its import returned a
truthy value.  Any exception aborts the whole run. -/
def runTasks {υ : Type} (mt : String → Nat) (download : String → υ)
    (paths : List String) (exact fc lm : Bool) :
    List (String × Option String) → List (String × υ) → List String →
    Except PyErr (List (String × υ) × List String)
  | [], result, unresolved => Except.ok (result, unresolved)
  | t :: rest, result, unresolved =>
    match importFile mt download paths t.1 t.2 exact fc lm result with
    | Except.error e => Except.error e
    | Except.ok (imported, result') =>
        runTasks mt download paths exact fc lm rest result'
          (if imported then removeFirst unresolved t.1 else unresolved)

/-- The orchestrator entry point: empty result mapping, unresolved list
initialised to a copy of the names (lines 118-120, 222). -/
def runImport {υ : Type} (mt : String → Nat) (download : String → υ)
    (paths : List String) (exact fc lm : Bool)
    (tasks : List (String × Option String)) :
    Except PyErr (List (String × υ) × List String) :=
  runTasks mt download paths exact fc lm tasks [] (tasks.map (fun t => t.1))

/-- The value exposed as `self.result`: a mapping, or its single bare value
after the singleton collapse. -/
inductive PyVal (υ : Type) where
  | mapping (m : List (String × υ))
  | bare (v : υ)
deriving DecidableEq

/-- Lines 317-318: `if len(self.result) == 1: self.result =
list(self.result.values())[0]`. -/
def finalizeResult {υ : Type} (m : List (String × υ)) : PyVal υ :=
  match m with
  | [p] => PyVal.bare p.2
  | _ => PyVal.mapping m

/-- Per-task keys generated by `import_file` into the result mapping, from
its candidate list (pattern itself under latest-match, `pattern_i`
otherwise). -/
def taskKeys (latestMatch : Bool) (pat : String) (cs : List String) :
    List String :=
  if cs.isEmpty then []
  else if latestMatch then [pat]
  else (List.range cs.length).map (fun i => pat ++ "_" ++ toString i)

/-- The keys all tasks generate, in task order (tasks whose candidate
computation crashes contribute nothing; such runs abort anyway). -/
def tasksKeys (paths : List String) (exact lm : Bool)
    (tasks : List (String × Option String)) : List String :=
  (tasks.map (fun t =>
    match codeCandidates exact t.2 t.1 paths with
    | Except.ok cs => taskKeys lm t.1 cs
    | Except.error _ => [])).flatten

/-- A Python value as far as `__init__`/`_validate_inputs` inspects its
shape: string, integer, `None`, or list. -/
inductive PyV where
  | pstr (s : String)
  | pint (n : Int)
  | pnone
  | plist (l : List PyV)

/-- Python truthiness of such a value. -/
def PyV.truthy : PyV → Bool
  | .pstr s => !(s == "")
  | .pint n => !(n == 0)
  | .pnone => false
  | .plist l => !l.isEmpty

def PyV.isStr : PyV → Bool
  | .pstr _ => true
  | _ => false

def PyV.isInt : PyV → Bool
  | .pint _ => true
  | _ => false

def PyV.isNone : PyV → Bool
  | .pnone => true
  | _ => false

def PyV.isList : PyV → Bool
  | .plist _ => true
  | _ => false

/-- `len` for list-shaped values (only queried on lists). -/
def PyV.len : PyV → Nat
  | .plist l => l.length
  | _ => 0

/-- Normalization of one subfolder element (inside the comprehension of
lines 100-107): `"/" + s` unless `s` already starts with `/`.  Elements
that are not strings have no `.startswith` attribute, so Python raises
`AttributeError`. -/
def normSubElem : PyV → Except PyErr PyV
  | .pstr s => Except.ok (.pstr (if s.startsWith "/" then s else "/" ++ s))
  | _ => Except.error PyErr.attrError

/-- Lines 100-107 of `__init__`: list-shaped `subfolders` are normalized
elementwise; anything else passes through untouched. -/
def normSub : PyV → Except PyErr PyV
  | .plist l => (l.mapM normSubElem).map PyV.plist
  | v => Except.ok v

/-- `_validate_inputs` (lines 140-198), transcribed check for check.  All
failures are `ValueError`. -/
def validateInputs (names sub sheets skiprows : PyV) : Except PyErr Unit :=
  if !names.truthy then Except.error PyErr.valueError
  else match names with
  | .pstr _ =>
      if !(sub.isStr || sub.isNone) then Except.error PyErr.valueError
      else if !(skiprows.isInt || skiprows.isNone) then Except.error PyErr.valueError
      else if !((sheets.isStr || sheets.isInt || sheets.isNone) ||
                (sheets.isList && sheets.len == 1)) then
        Except.error PyErr.valueError
      else Except.ok ()
  | .plist ns =>
      if !(sub.isList || sub.isStr || sub.isNone) then Except.error PyErr.valueError
      else if sub.isList && !(sub.len == ns.length) then Except.error PyErr.valueError
      else if skiprows.isList && !(skiprows.len == ns.length) then
        Except.error PyErr.valueError
      else if !((sheets.isStr || sheets.isInt || sheets.isNone) ||
                (sheets.isList && sheets.len == ns.length)) then
        Except.error PyErr.valueError
      else Except.ok ()
  | _ => Except.ok ()

/-- `__init__` up to and including `_validate_inputs`: `names` is replaced
by `None` when falsy (line 99), the subfolders are normalized (lines
100-107, which may raise `AttributeError`), and only then does
`_fill_atributes` run the validation. -/
def initAndValidate (names sub sheets skiprows : PyV) : Except PyErr Unit :=
  (normSub sub).bind (fun sub' =>
    validateInputs (if names.truthy then names else PyV.pnone) sub' sheets skiprows)

/-- OLE compound-document signature (legacy `.xls`). -/
def oleSig : List Nat := [0xD0, 0xCF, 0x11, 0xE0, 0xA1, 0xB1, 0x1A, 0xE1]

/-- ZIP local-file-header signature (modern `.xlsx`). -/
def zipSig : List Nat := [0x50, 0x4B, 0x03, 0x04]

/-- UTF-8 byte-order mark. -/
def bomSig : List Nat := [0xEF, 0xBB, 0xBF]

/-- `FileImporter.detect_file_type` (lines 518-536) over the file's bytes. -/
def detectFileType (b : List Nat) : String :=
  if oleSig.isPrefixOf b then "xls"
  else if zipSig.isPrefixOf b then "xlsx"
  else if bomSig.isPrefixOf b || (b.take 1024).contains 0x2C then "csv"
  else "unknown"

/-- A cell of a tabular frame: a value, or the missing-data marker (NaN). -/
inductive Cell where
  | val (s : String)
  | na
deriving DecidableEq, Repr

/-- A pandas DataFrame, shallowly: named columns and rows of cells (each
well-formed row has one cell per column). -/
structure Frame where
  cols : List String
  rows : List (List Cell)
deriving DecidableEq, Repr

/-- Index of the first column with the given name. -/
def colIdx : List String → String → Option Nat
  | [], _ => none
  | c :: cs, d => if c == d then some 0 else (colIdx cs d).map (· + 1)

/-- The cell of row `r` (a row of frame `f`) in column `c`; missing columns
read as NaN. -/
def Frame.getCell (f : Frame) (r : List Cell) (c : String) : Cell :=
  match colIdx f.cols c with
  | some i => r.getD i Cell.na
  | none => Cell.na

/-- `df.reindex(columns=cs)`: keep cells of retained columns, fill new
columns with NaN. -/
def Frame.reindex (f : Frame) (cs : List String) : Frame :=
  ⟨cs, f.rows.map (fun r => cs.map (fun c => f.getCell r c))⟩

/-- `df[c] = v` with a scalar: overwrite the column when present, else
append it with `v` in every row. -/
def Frame.setCol (f : Frame) (c : String) (v : Cell) : Frame :=
  match colIdx f.cols c with
  | some i => ⟨f.cols, f.rows.map (fun r => r.set i v)⟩
  | none => ⟨f.cols ++ [c], f.rows.map (fun r => r ++ [v])⟩

/-- `df.empty`: true when either axis has length zero. -/
def Frame.isEmpty (f : Frame) : Bool := f.rows.isEmpty || f.cols.isEmpty

/-- Row/column alignment invariant of a well-formed frame. -/
def Frame.wf (f : Frame) : Prop := ∀ r ∈ f.rows, r.length = f.cols.length

instance (f : Frame) : Decidable f.wf := by
  unfold Frame.wf; infer_instance

/-- Lexicographic comparison of character sequences by code point — the
order Python's `sorted` uses on strings. -/
def charsLe : List Char → List Char → Bool
  | [], _ => true
  | _ :: _, [] => false
  | a :: as, b :: bs =>
      if a < b then true else if b < a then false else charsLe as bs

/-- Python's `sorted` on a list of strings (insertion sort under the
lexicographic code-point order). -/
def sortStrings (l : List String) : List String :=
  l.insertionSort (fun a b => charsLe a.data b.data = true)

/-- `sorted(set.intersection(*column_sets))` (line 346): the columns of the
first frame that occur in every other frame, deduplicated and sorted. -/
def interCols (fs : List Frame) : List String :=
  match fs with
  | [] => []
  | f :: rest =>
      sortStrings ((f.cols.dedup).filter
        (fun c => rest.all (fun g => g.cols.contains c)))

/-- `sorted(set.union(*column_sets))` (line 343). -/
def unionColsSorted (fs : List Frame) : List String :=
  sortStrings (fs.foldl (fun a f => a ++ f.cols) []).dedup

/-- Column accumulation of `pd.concat` with the default outer join and
`sort=False`: append each frame's columns not yet seen, in order of first
appearance. -/
def appendNew (acc : List String) (cs : List String) : List String :=
  acc ++ cs.filter (fun c => !(acc.contains c))

/-- The concatenated frame's columns. -/
def concatCols (fs : List Frame) : List String :=
  fs.foldl (fun acc f => appendNew acc f.cols) []

/-- `pd.concat(fs, ignore_index=True)`: raises `ValueError` on an empty
list ("No objects to concatenate"); otherwise aligns every frame to the
outer-join column list, filling missing cells with NaN. -/
def concatFrames (fs : List Frame) : Except PyErr Frame :=
  if fs.isEmpty then Except.error PyErr.valueError
  else
    Except.ok ⟨concatCols fs,
      (fs.map (fun f => (f.reindex (concatCols fs)).rows)).flatten⟩

/-- `_concatenate_files` (lines 336-358) once the guard has established a
non-empty dict of DataFrames: returns the (possibly mutated) stored
mapping together with the outcome of the final `pd.concat` over the
non-empty frames.  In union mode the sorted union is computed (line 343)
but never applied to any frame; in intersection mode every stored frame is
mutated: it gains an `Origin` column holding its key and is reindexed to
the sorted intersection plus `Origin` (lines 348-352). -/
def concatStep (useUnion : Bool) (m : List (String × Frame)) :
    List (String × Frame) × Except PyErr Frame :=
  if useUnion then
    let _target := unionColsSorted (m.map (fun p => p.2))
    (m, concatFrames ((m.map (fun p => p.2)).filter (fun f => !f.isEmpty)))
  else
    let target := interCols (m.map (fun p => p.2))
    let m' := m.map (fun p =>
      (p.1, ((p.2).setCol "Origin" (Cell.val p.1)).reindex (target ++ ["Origin"])))
    (m', concatFrames ((m'.map (fun p => p.2)).filter (fun f => !f.isEmpty)))

/-- `sig.isPrefixOf` is insensitive to truncation beyond the signature's
length. -/
theorem isPrefixOf_take (sig : List Nat) :
    ∀ (b : List Nat) (n : Nat), sig.length ≤ n →
      sig.isPrefixOf (b.take n) = sig.isPrefixOf b := by
  induction sig with
  | nil => intro b n _; simp [List.isPrefixOf]
  | cons a s ih =>
      intro b n h
      cases b with
      | nil => simp [List.take_nil]
      | cons x xs =>
          cases n with
          | zero => exact absurd h (by simp)
          | succ m =>
              have hm : s.length ≤ m := by
                simpa [Nat.succ_le_succ_iff] using h
              simp [List.isPrefixOf, List.take_succ_cons, ih xs m hm]

/-- C1: the candidate set is the listing filtered by match predicate and
subfolder prefix in one pass — but when exact-match mode and a subfolder
prefix are combined, the source's comprehension reads the local `files`
before assignment and Python raises `UnboundLocalError` instead of
filtering; at the same input the other branches do filter the listing. -/
theorem candidates_exact_subfolder_crash :
    codeCandidates true (some "/docs") "/docs/KickOff_v1.xlsx"
        ["/docs/KickOff_v1.xlsx", "/docs/KickOff_v2.xlsx"] =
      Except.error PyErr.nameError ∧
    codeCandidates true none "/docs/KickOff_v1.xlsx"
        ["/docs/KickOff_v1.xlsx", "/docs/KickOff_v2.xlsx"] =
      Except.ok ["/docs/KickOff_v1.xlsx"] ∧
    codeCandidates false (some "/docs") "KickOff"
        ["/docs/KickOff_v1.xlsx", "/other/KickOff.xlsx"] =
      Except.ok ["/docs/KickOff_v1.xlsx"] :=
  ⟨rfl, rfl, by decide⟩

/-- C4: a subfolders sequence containing an absent (`None`) element — a
shape the class docstring and the spec explicitly allow — crashes in
`__init__`'s normalization with `AttributeError` before validation ever
runs; the same request with string prefixes passes validation. -/
theorem init_crashes_on_absent_subfolder_element :
    initAndValidate (PyV.plist [PyV.pstr "a", PyV.pstr "b"])
        (PyV.plist [PyV.pstr "docs", PyV.pnone]) (PyV.pint 0) PyV.pnone =
      Except.error PyErr.attrError ∧
    initAndValidate (PyV.plist [PyV.pstr "a", PyV.pstr "b"])
        (PyV.plist [PyV.pstr "docs", PyV.pstr "/d2"]) (PyV.pint 0) PyV.pnone =
      Except.ok () :=
  ⟨rfl, rfl⟩

/-- C5: format classification is a pure function of the first 1024 bytes,
and its rules fire in order: OLE signature, then ZIP signature (even when
a comma occurs among the leading bytes), then BOM-or-comma, else unknown. -/
theorem detect_file_type_first_1024 :
    (∀ b₁ b₂ : List Nat, b₁.take 1024 = b₂.take 1024 →
        detectFileType b₁ = detectFileType b₂) ∧
    (∀ b, oleSig.isPrefixOf b = true → detectFileType b = "xls") ∧
    (∀ b, oleSig.isPrefixOf b = false → zipSig.isPrefixOf b = true →
        detectFileType b = "xlsx") ∧
    (∀ b, oleSig.isPrefixOf b = false → zipSig.isPrefixOf b = false →
        (bomSig.isPrefixOf b || (b.take 1024).contains 0x2C) = true →
        detectFileType b = "csv") ∧
    (∀ b, oleSig.isPrefixOf b = false → zipSig.isPrefixOf b = false →
        bomSig.isPrefixOf b = false → (b.take 1024).contains 0x2C = false →
        detectFileType b = "unknown") := by
  refine ⟨?_, ?_, ?_, ?_, ?_⟩
  · intro b₁ b₂ h
    have ho : oleSig.isPrefixOf b₁ = oleSig.isPrefixOf b₂ := by
      rw [← isPrefixOf_take oleSig b₁ 1024 (by decide),
          ← isPrefixOf_take oleSig b₂ 1024 (by decide), h]
    have hz : zipSig.isPrefixOf b₁ = zipSig.isPrefixOf b₂ := by
      rw [← isPrefixOf_take zipSig b₁ 1024 (by decide),
          ← isPrefixOf_take zipSig b₂ 1024 (by decide), h]
    have hb : bomSig.isPrefixOf b₁ = bomSig.isPrefixOf b₂ := by
      rw [← isPrefixOf_take bomSig b₁ 1024 (by decide),
          ← isPrefixOf_take bomSig b₂ 1024 (by decide), h]
    unfold detectFileType
    rw [ho, hz, hb, h]
  · intro b h; unfold detectFileType; rw [h]; simp
  · intro b h1 h2; unfold detectFileType; rw [h1, h2]; simp
  · intro b h1 h2 h3; unfold detectFileType; rw [h1, h2, h3]; simp
  · intro b h1 h2 h3 h4; unfold detectFileType; rw [h1, h2, h3, h4]; simp

/-- C5 witness: a buffer whose first bytes are the ZIP signature followed
by a comma is classified as a modern workbook. -/
theorem detect_file_type_first_1024_witness :
    detectFileType (zipSig ++ [0x2C]) = "xlsx" :=
  detect_file_type_first_1024.2.2.1 (zipSig ++ [0x2C]) (by decide) (by decide)

/-- C6: finalization collapses a one-entry mapping to its bare value and
leaves every other mapping exposed as a mapping. -/
theorem finalize_singleton_collapse {υ : Type} (m : List (String × υ)) :
    (∀ k (v : υ), m = [(k, v)] → finalizeResult m = PyVal.bare v) ∧
    (m.length ≠ 1 → finalizeResult m = PyVal.mapping m) := by
  constructor
  · intro k v h; subst h; rfl
  · intro h
    cases m with
    | nil => rfl
    | cons p rest =>
        cases rest with
        | nil => exact absurd rfl h
        | cons q r => rfl

/-- C6 witness: concrete singleton and empty mappings. -/
theorem finalize_singleton_collapse_witness :
    finalizeResult [("a", (0 : Nat))] = PyVal.bare 0 ∧
    finalizeResult ([] : List (String × Nat)) = PyVal.mapping [] :=
  ⟨(finalize_singleton_collapse [("a", 0)]).1 "a" 0 rfl,
   (finalize_singleton_collapse ([] : List (String × Nat))).2 (by decide)⟩

/-- The seeded latest-file scan returns the first maximum: the scanned list
splits around the result, everything before it strictly older, everything
after it no newer. -/
theorem selLoop_split (mt : String → Nat) :
    ∀ (cs : List String) (g : String),
      ∃ l₁ l₂, g :: cs = l₁ ++ selLoop mt g cs :: l₂ ∧
        (∀ q ∈ l₁, mt q < mt (selLoop mt g cs)) ∧
        (∀ q ∈ l₂, mt q ≤ mt (selLoop mt g cs)) := by
  intro cs
  induction cs with
  | nil => exact fun g => ⟨[], [], rfl, by simp, by simp⟩
  | cons f rest ih =>
      intro g
      by_cases h : mt g < mt f
      · have hs : selLoop mt g (f :: rest) = selLoop mt f rest := by
          simp [selLoop, h]
        obtain ⟨l₁, l₂, heq, h₁, h₂⟩ := ih f
        have hf : mt f ≤ mt (selLoop mt f rest) := by
          cases l₁ with
          | nil =>
              have hfs : f = selLoop mt f rest := by
                simpa using congrArg (fun l => l.head?) heq
              rw [← hfs]
          | cons a l₁' =>
              have ha : f = a := by simpa using congrArg (fun l => l.head?) heq
              have hlt := h₁ a (List.mem_cons_self a l₁')
              rw [← ha] at hlt
              exact Nat.le_of_lt hlt
        refine ⟨g :: l₁, l₂, ?_, ?_, ?_⟩
        · rw [hs, List.cons_append, ← heq]
        · intro q hq
          rcases List.mem_cons.mp hq with hq | hq
          · subst hq; rw [hs]; exact Nat.lt_of_lt_of_le h hf
          · rw [hs]; exact h₁ q hq
        · intro q hq; rw [hs]; exact h₂ q hq
      · have hs : selLoop mt g (f :: rest) = selLoop mt g rest := by
          simp [selLoop, h]
        obtain ⟨l₁, l₂, heq, h₁, h₂⟩ := ih g
        cases l₁ with
        | nil =>
            have hg : g = selLoop mt g rest := by
              simpa using congrArg (fun l => l.head?) heq
            have hrest : rest = l₂ := by
              simpa using congrArg (fun l => l.tail) heq
            refine ⟨[], f :: rest, ?_, by simp, ?_⟩
            · rw [hs, ← hg]; simp
            · intro q hq
              rcases List.mem_cons.mp hq with hq | hq
              · subst hq; rw [hs, ← hg]; exact Nat.le_of_not_lt h
              · rw [hs]; exact h₂ q (hrest ▸ hq)
        | cons a l₁' =>
            have ha : g = a := by simpa using congrArg (fun l => l.head?) heq
            have hrest : rest = l₁' ++ selLoop mt g rest :: l₂ := by
              simpa using congrArg (fun l => l.tail) heq
            have hglt : mt g < mt (selLoop mt g rest) := by
              have hlt := h₁ a (List.mem_cons_self a l₁')
              rwa [← ha] at hlt
            refine ⟨g :: f :: l₁', l₂, ?_, ?_, ?_⟩
            · rw [hs]; nth_rewrite 1 [hrest]; simp
            · intro q hq
              rcases List.mem_cons.mp hq with hq | hq
              · subst hq; rw [hs]; exact hglt
              · rcases List.mem_cons.mp hq with hq | hq
                · subst hq; rw [hs]
                  exact Nat.lt_of_le_of_lt (Nat.le_of_not_lt h) hglt
                · rw [hs]; exact h₁ q (List.mem_cons_of_mem a hq)
            · intro q hq; rw [hs]; exact h₂ q hq

/-- `selectLatest` on a non-empty candidate list is the seeded scan. -/
theorem selectLatest_eq (mt : String → Nat) (c : String) (rest : List String) :
    selectLatest mt (c :: rest) = some (selLoop mt c rest) := by
  have haux : ∀ (l : List String) (g : String),
      l.foldl (selStep mt) (some g) = some (selLoop mt g l) := by
    intro l
    induction l with
    | nil => intro g; rfl
    | cons f r ih =>
        intro g
        by_cases h : mt g < mt f <;> simp [List.foldl, selStep, selLoop, h, ih]
  simp [selectLatest, List.foldl, selStep, haux]

/-- C3: under latest-match with a non-empty candidate set, the importer
stores the downloaded value under the key equal to the pattern itself, and
the selected candidate is at least as recent as every candidate, with
every candidate listed before it strictly older (first maximum wins). -/
theorem importer_latest_selection {υ : Type} (mt : String → Nat)
    (download : String → υ) (paths : List String) (pat : String)
    (sub : Option String) (exact fc : Bool) (result : List (String × υ))
    (cs : List String)
    (hcs : codeCandidates exact sub pat paths = Except.ok cs)
    (hne : cs ≠ []) :
    ∃ s, selectLatest mt cs = some s ∧
      importFile mt download paths pat sub exact fc true result =
        Except.ok (true, dictInsert result pat (download s)) ∧
      s ∈ cs ∧ (∀ q ∈ cs, mt q ≤ mt s) ∧
      ∃ l₁ l₂, cs = l₁ ++ s :: l₂ ∧ ∀ q ∈ l₁, mt q < mt s := by
  obtain ⟨c, rest, rfl⟩ := List.exists_cons_of_ne_nil hne
  have hsel := selectLatest_eq mt c rest
  obtain ⟨l₁, l₂, heq, h₁, h₂⟩ := selLoop_split mt rest c
  refine ⟨selLoop mt c rest, hsel, ?_, ?_, ?_, l₁, l₂, heq, h₁⟩
  · simp [importFile, hcs, hsel]
  · rw [heq]; exact List.mem_append_right l₁ (List.mem_cons_self _ l₂)
  · intro q hq
    rw [heq] at hq
    rcases List.mem_append.mp hq with hq | hq
    · exact Nat.le_of_lt (h₁ q hq)
    · rcases List.mem_cons.mp hq with hq | hq
      · subst hq; exact Nat.le_refl _
      · exact h₂ q hq

/-- C3 witness: two matches, the second more recently modified, gets
selected and stored under the pattern key. -/
theorem importer_latest_selection_witness :
    ∃ s, selectLatest
        (fun p => if p == "/docs/KickOff_v2.xlsx" then 2000 else 1000)
        ["/docs/KickOff_v1.xlsx", "/docs/KickOff_v2.xlsx"] = some s ∧
      importFile (fun p => if p == "/docs/KickOff_v2.xlsx" then 2000 else 1000)
          (fun p => p) ["/docs/KickOff_v1.xlsx", "/docs/KickOff_v2.xlsx"]
          "KickOff" none false false true [] =
        Except.ok (true, dictInsert [] "KickOff" s) ∧
      s ∈ ["/docs/KickOff_v1.xlsx", "/docs/KickOff_v2.xlsx"] ∧
      (∀ q ∈ ["/docs/KickOff_v1.xlsx", "/docs/KickOff_v2.xlsx"],
        (fun p : String => if p == "/docs/KickOff_v2.xlsx" then 2000 else 1000) q ≤
        (fun p : String => if p == "/docs/KickOff_v2.xlsx" then 2000 else 1000) s) ∧
      ∃ l₁ l₂, ["/docs/KickOff_v1.xlsx", "/docs/KickOff_v2.xlsx"] = l₁ ++ s :: l₂ ∧
        ∀ q ∈ l₁,
          (fun p : String => if p == "/docs/KickOff_v2.xlsx" then 2000 else 1000) q <
          (fun p : String => if p == "/docs/KickOff_v2.xlsx" then 2000 else 1000) s :=
  importer_latest_selection
    (fun p => if p == "/docs/KickOff_v2.xlsx" then 2000 else 1000)
    (fun p => p) ["/docs/KickOff_v1.xlsx", "/docs/KickOff_v2.xlsx"]
    "KickOff" none false false [] ["/docs/KickOff_v1.xlsx", "/docs/KickOff_v2.xlsx"]
    (by decide) (by decide)

/-- Removing one name keeps every other name in the unresolved list. -/
theorem mem_removeFirst (l : List String) (q pat : String)
    (hne : pat ≠ q) (h : pat ∈ l) : pat ∈ removeFirst l q := by
  induction l with
  | nil => cases h
  | cons x xs ih =>
      by_cases hx : x == q
      · have hx' : x = q := by simpa using hx
        rw [removeFirst, if_pos hx]
        rcases List.mem_cons.mp h with h | h
        · exact absurd (hx' ▸ h) hne
        · exact h
      · rw [removeFirst, if_neg hx]
        rcases List.mem_cons.mp h with h | h
        · exact h ▸ List.mem_cons_self x _
        · exact List.mem_cons_of_mem x (ih h)

/-- A pattern whose every task yields an empty candidate set under
non-strict mode survives in the unresolved list across the whole run. -/
theorem runTasks_keeps_unresolved {υ : Type} (mt : String → Nat)
    (download : String → υ) (paths : List String) (exact fc lm : Bool)
    (pat : String) :
    ∀ (tasks : List (String × Option String)) (res₀ : List (String × υ))
      (unres₀ : List String) (res : List (String × υ)) (unres : List String),
      runTasks mt download paths exact fc lm tasks res₀ unres₀ =
        Except.ok (res, unres) →
      pat ∈ unres₀ →
      (∀ t ∈ tasks, t.1 = pat →
        codeCandidates exact t.2 pat paths = Except.ok [] ∧ fc = false) →
      pat ∈ unres := by
  intro tasks
  induction tasks with
  | nil =>
      intro res₀ unres₀ res unres h hmem _
      simp [runTasks] at h
      exact h.2 ▸ hmem
  | cons t rest ih =>
      intro res₀ unres₀ res unres h hmem htasks
      by_cases hteq : t.1 = pat
      · obtain ⟨hcs, hfc⟩ := htasks t (List.mem_cons_self t rest) hteq
        have himp : importFile mt download paths t.1 t.2 exact fc lm res₀ =
            Except.ok (false, res₀) := by
          rw [hteq]; simp [importFile, hcs, hfc]
        rw [runTasks, himp] at h
        exact ih res₀ unres₀ res unres h hmem
          (fun t' ht' => htasks t' (List.mem_cons_of_mem t ht'))
      · cases himp : importFile mt download paths t.1 t.2 exact fc lm res₀ with
        | error e => rw [runTasks, himp] at h; cases h
        | ok pr =>
            obtain ⟨b, res'⟩ := pr
            rw [runTasks, himp] at h
            refine ih res' _ res unres h ?_
              (fun t' ht' => htasks t' (List.mem_cons_of_mem t ht'))
            cases b with
            | true =>
                simpa using mem_removeFirst unres₀ t.1 pat
                  (fun hc => hteq hc.symm) hmem
            | false => simpa using hmem

/-- When the task names are pairwise distinct, a task is determined by its
name. -/
theorem nodupFst_eq {α : Type} (l : List (String × α))
    (hn : (l.map (fun t => t.1)).Nodup) (a b : String × α)
    (ha : a ∈ l) (hb : b ∈ l) (hfst : a.1 = b.1) : a = b := by
  induction l with
  | nil => cases ha
  | cons x xs ih =>
      rw [List.map_cons, List.nodup_cons] at hn
      obtain ⟨hx, hxs⟩ := hn
      rcases List.mem_cons.mp ha with ha' | ha' <;>
        rcases List.mem_cons.mp hb with hb' | hb'
      · rw [ha', hb']
      · exfalso
        have hmem : b.1 ∈ xs.map (fun t => t.1) :=
          List.mem_map_of_mem (fun t => t.1) hb'
        rw [← hfst, ha'] at hmem
        exact hx hmem
      · exfalso
        have hmem : a.1 ∈ xs.map (fun t => t.1) :=
          List.mem_map_of_mem (fun t => t.1) ha'
        rw [hfst, hb'] at hmem
        exact hx hmem
      · exact ih hxs ha' hb'

/-- C2: given a successfully computed candidate set, the per-file importer
raises `FileNotFoundError` exactly when the set is empty and `file_checker`
is on; with the checker off an empty set returns a falsy flag, leaves the
result mapping untouched, and the pattern stays in the unresolved list of
any successful orchestration whose task names are distinct. -/
theorem importer_empty_candidates_policy {υ : Type} (mt : String → Nat)
    (download : String → υ) (paths : List String) (pat : String)
    (sub : Option String) (exact fc lm : Bool) (result : List (String × υ))
    (cs : List String)
    (hcs : codeCandidates exact sub pat paths = Except.ok cs) :
    ((importFile mt download paths pat sub exact fc lm result =
        Except.error PyErr.fileNotFound) ↔ (cs = [] ∧ fc = true)) ∧
    (cs = [] → fc = false →
      importFile mt download paths pat sub exact fc lm result =
        Except.ok (false, result)) ∧
    (∀ (tasks : List (String × Option String)) (res : List (String × υ))
        (unres : List String),
      runImport mt download paths exact fc lm tasks = Except.ok (res, unres) →
      (tasks.map (fun t => t.1)).Nodup → (pat, sub) ∈ tasks →
      cs = [] → fc = false → pat ∈ unres) := by
  refine ⟨?_, ?_, ?_⟩
  · cases cs with
    | nil =>
        cases fc with
        | true => simp [importFile, hcs]
        | false => simp [importFile, hcs]
    | cons c rest =>
        cases lm with
        | true =>
            cases hsel : selectLatest mt (c :: rest) with
            | none => simp [importFile, hcs, hsel]
            | some s => simp [importFile, hcs, hsel]
        | false => simp [importFile, hcs]
  · intro hnil hfc
    subst hnil
    simp [importFile, hcs, hfc]
  · intro tasks res unres hrun hnodup hmemtask hnil hfc
    have hrun' : runTasks mt download paths exact fc lm tasks []
        (tasks.map (fun t => t.1)) = Except.ok (res, unres) := hrun
    refine runTasks_keeps_unresolved mt download paths exact fc lm pat tasks
      [] (tasks.map (fun t => t.1)) res unres hrun'
      (List.mem_map_of_mem (fun t => t.1) hmemtask) ?_
    intro t ht hteq
    have hts : t = (pat, sub) :=
      nodupFst_eq tasks hnodup t (pat, sub) ht hmemtask hteq
    rw [hts]
    exact ⟨hnil ▸ hcs, hfc⟩

/-- C2 witness: a pattern with no match under non-strict mode returns
falsy, leaves the mapping empty, and stays unresolved. -/
theorem importer_empty_candidates_policy_witness :
    (importFile (fun _ => 0) (fun p => p) ["/docs/a.csv"] "Missing" none
        false false true [] = Except.ok (false, [])) ∧
    "Missing" ∈ (["Missing"] : List String) := by
  have h := importer_empty_candidates_policy (fun _ => (0 : Nat))
    (fun p => p) ["/docs/a.csv"] "Missing" none false false true [] []
    (by decide)
  refine ⟨h.2.1 rfl rfl, ?_⟩
  exact h.2.2 [("Missing", none)] [] ["Missing"] (by decide) (by decide)
    (by simp) rfl rfl

/-- Inserting a fresh key into the result dict appends it. -/
theorem dictInsert_fresh {υ : Type} (m : List (String × υ)) (k : String)
    (v : υ) (h : k ∉ m.map (fun p => p.1)) :
    dictInsert m k v = m ++ [(k, v)] := by
  have hany : m.any (fun p => p.1 == k) = false := by
    rw [List.any_eq_false]
    intro p hp hc
    have hmem : p.1 ∈ List.map (fun p => p.1) m :=
      List.mem_map_of_mem (fun p => p.1) hp
    rw [eq_of_beq hc] at hmem
    exact h hmem
  rw [dictInsert, hany]
  simp

/-- The non-latest loop appends keys `pattern_c, pattern_(c+1), …` in
candidate order, provided those keys are globally fresh. -/
theorem importLoop_keys {υ : Type} (download : String → υ) (pat : String) :
    ∀ (files : List String) (c : Nat) (res : List (String × υ)),
      (res.map (fun p => p.1) ++
        (List.range files.length).map
          (fun i => pat ++ "_" ++ toString (c + i))).Nodup →
      (importLoop download pat files c res).map (fun p => p.1) =
        res.map (fun p => p.1) ++
          (List.range files.length).map (fun i => pat ++ "_" ++ toString (c + i)) := by
  intro files
  induction files with
  | nil => intro c res _; simp [importLoop]
  | cons f rest ih =>
      intro c res hfresh
      have hdecomp : (List.range (f :: rest).length).map
          (fun i => pat ++ "_" ++ toString (c + i)) =
          (pat ++ "_" ++ toString c) ::
            (List.range rest.length).map
              (fun i => pat ++ "_" ++ toString (c + 1 + i)) := by
        rw [List.length_cons, List.range_succ_eq_map, List.map_cons,
          List.map_map]
        refine congrArg₂ _ (by rw [Nat.add_zero]) ?_
        refine List.map_congr_left ?_
        intro i _
        simp only [Function.comp_apply]
        rw [show c + Nat.succ i = c + 1 + i by omega]
      rw [hdecomp] at hfresh
      have hknotin : (pat ++ "_" ++ toString c) ∉ res.map (fun p => p.1) := by
        intro hc
        have hdisj := List.disjoint_of_nodup_append hfresh
        exact hdisj hc (List.mem_cons_self _ _)
      rw [importLoop, dictInsert_fresh res _ (download f) hknotin, hdecomp]
      have hkeys' : (res ++ [(pat ++ "_" ++ toString c, download f)]).map
          (fun p => p.1) =
          res.map (fun p => p.1) ++ [pat ++ "_" ++ toString c] := by simp
      have hfresh' : ((res ++ [(pat ++ "_" ++ toString c, download f)]).map
          (fun p => p.1) ++
          (List.range rest.length).map
            (fun i => pat ++ "_" ++ toString (c + 1 + i))).Nodup := by
        rw [hkeys', List.append_assoc]
        simpa using hfresh
      rw [ih (c + 1) _ hfresh', hkeys']
      simp

/-- One import task appends exactly its `taskKeys` to the mapping's keys
(pattern under latest-match, `pattern_0 … pattern_(n-1)` otherwise),
provided those keys are fresh. -/
theorem importFile_keys {υ : Type} (mt : String → Nat) (download : String → υ)
    (paths : List String) (pat : String) (sub : Option String)
    (exact fc lm : Bool) (res : List (String × υ)) (cs : List String)
    (b : Bool) (res' : List (String × υ))
    (hcs : codeCandidates exact sub pat paths = Except.ok cs)
    (h : importFile mt download paths pat sub exact fc lm res =
      Except.ok (b, res'))
    (hfresh : (res.map (fun p => p.1) ++ taskKeys lm pat cs).Nodup) :
    res'.map (fun p => p.1) = res.map (fun p => p.1) ++ taskKeys lm pat cs := by
  cases cs with
  | nil =>
      cases fc with
      | false =>
          have heq : importFile mt download paths pat sub exact false lm res =
              Except.ok (false, res) := by simp [importFile, hcs]
          rw [heq] at h
          injection h with h1
          injection h1 with hb hr
          rw [← hr]
          simp [taskKeys]
      | true =>
          have hfail : importFile mt download paths pat sub exact true lm res =
              Except.error PyErr.fileNotFound := by simp [importFile, hcs]
          rw [hfail] at h
          cases h
  | cons c rest =>
      cases lm with
      | false =>
          have hloop : importFile mt download paths pat sub exact fc false res =
              Except.ok (true, importLoop download pat (c :: rest) 0 res) := by
            simp [importFile, hcs]
          rw [hloop] at h
          injection h with h1
          injection h1 with hb hr
          have hmap0 : (List.range (c :: rest).length).map
              (fun i => pat ++ "_" ++ toString (0 + i)) =
              taskKeys false pat (c :: rest) := by
            rw [taskKeys]
            simp only [List.isEmpty_cons, Bool.false_eq_true, if_false]
            exact List.map_congr_left (fun i _ => by rw [Nat.zero_add])
          rw [← hr, ← hmap0]
          exact importLoop_keys download pat (c :: rest) 0 res
            (by rw [hmap0]; exact hfresh)
      | true =>
          have hsel := selectLatest_eq mt c rest
          have hlat : importFile mt download paths pat sub exact fc true res =
              Except.ok (true,
                dictInsert res pat (download (selLoop mt c rest))) := by
            simp [importFile, hcs, hsel]
          rw [hlat] at h
          injection h with h1
          injection h1 with hb hr
          have htk : taskKeys true pat (c :: rest) = [pat] := by
            simp [taskKeys]
          rw [htk] at hfresh
          have hpatfresh : pat ∉ res.map (fun p => p.1) := by
            intro hc
            exact List.disjoint_of_nodup_append hfresh hc
              (List.mem_singleton_self pat)
          rw [← hr, dictInsert_fresh res pat _ hpatfresh, htk]
          simp

/-- Across a successful run, the result mapping's keys are the
concatenation, in task order, of each task's generated keys. -/
theorem runTasks_keys {υ : Type} (mt : String → Nat) (download : String → υ)
    (paths : List String) (exact fc lm : Bool) :
    ∀ (tasks : List (String × Option String)) (res₀ : List (String × υ))
      (unres₀ : List String) (res : List (String × υ)) (unres : List String),
      runTasks mt download paths exact fc lm tasks res₀ unres₀ =
        Except.ok (res, unres) →
      (res₀.map (fun p => p.1) ++ tasksKeys paths exact lm tasks).Nodup →
      res.map (fun p => p.1) =
        res₀.map (fun p => p.1) ++ tasksKeys paths exact lm tasks := by
  intro tasks
  induction tasks with
  | nil =>
      intro res₀ unres₀ res unres h _
      simp [runTasks] at h
      rw [← h.1]
      simp [tasksKeys]
  | cons t rest ih =>
      intro res₀ unres₀ res unres h hfresh
      cases hcs : codeCandidates exact t.2 t.1 paths with
      | error e =>
          have himp : importFile mt download paths t.1 t.2 exact fc lm res₀ =
              Except.error e := by simp [importFile, hcs]
          rw [runTasks, himp] at h
          cases h
      | ok cs =>
          have hdecomp : tasksKeys paths exact lm (t :: rest) =
              taskKeys lm t.1 cs ++ tasksKeys paths exact lm rest := by
            simp [tasksKeys, hcs]
          rw [hdecomp] at hfresh
          cases himp : importFile mt download paths t.1 t.2 exact fc lm res₀ with
          | error e => rw [runTasks, himp] at h; cases h
          | ok pr =>
              obtain ⟨b, res'⟩ := pr
              rw [runTasks, himp] at h
              have hfresh1 : (res₀.map (fun p => p.1) ++ taskKeys lm t.1 cs).Nodup := by
                rw [← List.append_assoc] at hfresh
                exact ((res₀.map (fun p => p.1) ++
                  taskKeys lm t.1 cs).sublist_append_left _).nodup hfresh
              have hkeys' := importFile_keys mt download paths t.1 t.2 exact fc
                lm res₀ cs b res' hcs himp hfresh1
              have hfresh2 : (res'.map (fun p => p.1) ++
                  tasksKeys paths exact lm rest).Nodup := by
                rw [hkeys', List.append_assoc]
                exact hfresh
              have hres := ih res' _ res unres h hfresh2
              rw [hres, hkeys', hdecomp, List.append_assoc]

/-- C7: in a successful run the result mapping's keys follow the caller's
names order — the concatenation, task by task, of that task's keys: the
bare pattern under latest-match (at most one key per pattern), else
`pattern_0, pattern_1, …` in the folder listing's order. -/
theorem result_keys_follow_names_order {υ : Type} (mt : String → Nat)
    (download : String → υ) (paths : List String) (exact fc lm : Bool)
    (tasks : List (String × Option String)) (res : List (String × υ))
    (unres : List String)
    (hrun : runImport mt download paths exact fc lm tasks =
      Except.ok (res, unres))
    (hfresh : (tasksKeys paths exact lm tasks).Nodup) :
    res.map (fun p => p.1) = tasksKeys paths exact lm tasks := by
  have hrun' : runTasks mt download paths exact fc lm tasks []
      (tasks.map (fun t => t.1)) = Except.ok (res, unres) := hrun
  have h := runTasks_keys mt download paths exact fc lm tasks []
    (tasks.map (fun t => t.1)) res unres hrun' (by simpa using hfresh)
  simpa using h

/-- C7 witness: two substring patterns without latest-match; the first
matches two listed paths, the second one, giving keys
`a_0, a_1, b_0` in names-then-listing order. -/
theorem result_keys_follow_names_order_witness :
    List.map (fun p => p.1) [("a_0", "a1"), ("a_1", "a2"), ("b_0", "b1")] =
      tasksKeys ["a1", "a2", "b1"] false false [("a", none), ("b", none)] :=
  result_keys_follow_names_order (fun _ => 0) (fun p => p) ["a1", "a2", "b1"]
    false false false [("a", none), ("b", none)]
    [("a_0", "a1"), ("a_1", "a2"), ("b_0", "b1")] [] (by decide) (by decide)

/-- A column absent from the header has no index. -/
theorem colIdx_none (l : List String) (c : String) (h : c ∉ l) :
    colIdx l c = none := by
  induction l with
  | nil => rfl
  | cons x xs ih =>
      have hx : ¬(x == c) := by
        intro hc
        exact h (eq_of_beq hc ▸ List.mem_cons_self x xs)
      rw [colIdx, if_neg hx, ih (fun hc => h (List.mem_cons_of_mem x hc))]
      rfl

/-- A column index is within the header's length. -/
theorem colIdx_lt (l : List String) (c : String) :
    ∀ i, colIdx l c = some i → i < l.length := by
  induction l with
  | nil => intro i h; cases h
  | cons x xs ih =>
      intro i h
      rw [colIdx] at h
      by_cases hx : (x == c) = true
      · rw [if_pos hx] at h
        injection h with h
        rw [← h]
        simp
      · rw [if_neg hx] at h
        cases hidx : colIdx xs c with
        | none => rw [hidx] at h; cases h
        | some j =>
            rw [hidx] at h
            injection h with h
            rw [← h, List.length_cons]
            exact Nat.succ_lt_succ (ih j hidx)

/-- Looking up a column of the left part of a concatenated header. -/
theorem colIdx_append_left (l₁ l₂ : List String) (c : String) (h : c ∈ l₁) :
    colIdx (l₁ ++ l₂) c = colIdx l₁ c := by
  induction l₁ with
  | nil => cases h
  | cons x xs ih =>
      by_cases hx : (x == c) = true
      · rw [List.cons_append, colIdx, if_pos hx, colIdx, if_pos hx]
      · have hmem : c ∈ xs := by
          rcases List.mem_cons.mp h with h' | h'
          · exfalso; rw [h'] at hx; exact hx (beq_self_eq_true x)
          · exact h'
        rw [List.cons_append, colIdx, if_neg hx, colIdx, if_neg hx, ih hmem]

/-- Looking up a freshly appended column gives the old header's length. -/
theorem colIdx_append_self (l : List String) (c : String) (h : c ∉ l) :
    colIdx (l ++ [c]) c = some l.length := by
  induction l with
  | nil => simp [colIdx]
  | cons x xs ih =>
      have hx : ¬(x == c) := by
        intro hc
        exact h (eq_of_beq hc ▸ List.mem_cons_self x xs)
      rw [List.cons_append, colIdx, if_neg hx,
        ih (fun hc => h (List.mem_cons_of_mem x hc))]
      rfl

/-- `getD` within the left part of an appended list. -/
theorem getD_append_lt {α : Type} (l₁ l₂ : List α) (i : Nat) (d : α)
    (h : i < l₁.length) : (l₁ ++ l₂).getD i d = l₁.getD i d := by
  induction l₁ generalizing i with
  | nil => cases h
  | cons x xs ih =>
      cases i with
      | zero => rfl
      | succ j =>
          rw [List.cons_append, List.getD_cons_succ, List.getD_cons_succ]
          exact ih j (Nat.lt_of_succ_lt_succ h)

/-- `getD` at the position of a freshly appended element. -/
theorem getD_append_len {α : Type} (l : List α) (v d : α) :
    (l ++ [v]).getD l.length d = v := by
  induction l with
  | nil => rfl
  | cons x xs ih => rw [List.cons_append, List.length_cons, List.getD_cons_succ, ih]

/-- Reindexing a frame by its own duplicate-free header is the identity on
well-formed rows. -/
theorem map_getCell_self (L : List String) :
    ∀ (r : List Cell), L.Nodup → r.length = L.length →
      L.map (fun c => match colIdx L c with
        | some i => r.getD i Cell.na
        | none => Cell.na) = r := by
  induction L with
  | nil =>
      intro r _ hlen
      cases r with
      | nil => rfl
      | cons x r' => cases hlen
  | cons c L' ih =>
      intro r hnd hlen
      cases r with
      | nil => cases hlen
      | cons x r' =>
          obtain ⟨hc, hnd'⟩ := List.nodup_cons.mp hnd
          rw [List.map_cons]
          have hhead : (match colIdx (c :: L') c with
              | some i => (x :: r').getD i Cell.na
              | none => Cell.na) = x := by
            rw [colIdx, if_pos (beq_self_eq_true c)]
            rfl
          rw [hhead]
          have htail : L'.map (fun d => match colIdx (c :: L') d with
              | some i => (x :: r').getD i Cell.na
              | none => Cell.na) =
              L'.map (fun d => match colIdx L' d with
                | some i => r'.getD i Cell.na
                | none => Cell.na) := by
            refine List.map_congr_left ?_
            intro d hd
            have hdc : ¬(c == d) := by
              intro hcb
              exact hc (eq_of_beq hcb ▸ hd)
            rw [colIdx, if_neg hdc]
            cases hidx : colIdx L' d with
            | none => rfl
            | some i => rfl
          rw [htail, ih r' hnd' (by simpa using hlen)]

/-- Reindexing a well-formed frame by its own duplicate-free header is the
identity. -/
theorem reindex_id (f : Frame) (hnd : f.cols.Nodup) (hwf : Frame.wf f) :
    f.reindex f.cols = f := by
  obtain ⟨cols, rows⟩ := f
  rw [Frame.reindex]
  congr 1
  have hpt : ∀ r ∈ rows,
      cols.map (fun c => Frame.getCell ⟨cols, rows⟩ r c) = r := by
    intro r hr
    exact map_getCell_self cols r hnd (hwf r hr)
  calc rows.map (fun r => cols.map (fun c => Frame.getCell ⟨cols, rows⟩ r c))
      = rows.map id := List.map_congr_left hpt
    _ = rows := List.map_id rows

/-- Lines 349-352 on one frame: adding the `Origin` column (absent from the
frame) and reindexing to the target-plus-`Origin` header keeps the target
cells and appends the origin value to every row. -/
theorem setCol_reindex_eq (f : Frame) (T : List String) (v : Cell)
    (hOr : "Origin" ∉ f.cols) (hwf : Frame.wf f)
    (hT : ∀ c ∈ T, c ∈ f.cols) :
    (f.setCol "Origin" v).reindex (T ++ ["Origin"]) =
      ⟨T ++ ["Origin"],
        f.rows.map (fun r => T.map (fun c => f.getCell r c) ++ [v])⟩ := by
  have hset : f.setCol "Origin" v =
      ⟨f.cols ++ ["Origin"], f.rows.map (fun r => r ++ [v])⟩ := by
    rw [Frame.setCol, colIdx_none f.cols "Origin" hOr]
  rw [hset, Frame.reindex]
  congr 1
  rw [List.map_map]
  refine List.map_congr_left ?_
  intro r hr
  simp only [Function.comp_apply, List.map_append]
  congr 1
  · refine List.map_congr_left ?_
    intro c hcT
    simp only [Frame.getCell]
    rw [colIdx_append_left f.cols ["Origin"] c (hT c hcT)]
    cases hcase : colIdx f.cols c with
    | none => rfl
    | some i =>
        exact getD_append_lt r [v] i Cell.na
          (by rw [hwf r hr]; exact colIdx_lt f.cols c i hcase)
  · simp only [List.map_cons, List.map_nil, Frame.getCell]
    rw [colIdx_append_self f.cols "Origin" hOr]
    show [(r ++ [v]).getD f.cols.length Cell.na] = [v]
    rw [show f.cols.length = r.length from (hwf r hr).symm,
      getD_append_len r v Cell.na]

/-- Sorting permutes, so membership is preserved. -/
theorem mem_sortStrings {c : String} {l : List String} :
    c ∈ sortStrings l ↔ c ∈ l := by
  rw [sortStrings]
  exact (List.perm_insertionSort _ l).mem_iff

/-- Sorting permutes, so duplicate-freeness is preserved. -/
theorem sortStrings_nodup {l : List String} (h : l.Nodup) :
    (sortStrings l).Nodup := by
  rw [sortStrings]
  exact ((List.perm_insertionSort _ l).nodup_iff).mpr h

/-- The sorted intersection of the column sets is duplicate-free. -/
theorem interCols_nodup (fs : List Frame) : (interCols fs).Nodup := by
  cases fs with
  | nil => exact List.nodup_nil
  | cons f rest =>
      exact sortStrings_nodup ((List.nodup_dedup f.cols).filter _)

/-- Every column of the sorted intersection occurs in every frame. -/
theorem interCols_mem (fs : List Frame) (c : String) (hc : c ∈ interCols fs) :
    ∀ f ∈ fs, c ∈ f.cols := by
  cases fs with
  | nil => intro f hf; cases hf
  | cons f rest =>
      intro g hg
      rw [interCols] at hc
      have hc' := mem_sortStrings.mp hc
      have hmem := List.mem_of_mem_filter hc'
      have hpred := List.of_mem_filter hc'
      rcases List.mem_cons.mp hg with hg | hg
      · exact hg ▸ List.mem_dedup.mp hmem
      · have helem := (List.all_eq_true.mp hpred) g hg
        exact List.mem_of_elem_eq_true helem

/-- Elements already present are all dropped by the novelty filter. -/
theorem filter_not_contains (L : List String) :
    ∀ (M : List String), (∀ c ∈ M, c ∈ L) →
      M.filter (fun c => !(L.contains c)) = [] := by
  intro M
  induction M with
  | nil => intro _; rfl
  | cons x xs ih =>
      intro h
      rw [List.filter_cons]
      have hx : L.contains x = true :=
        List.elem_eq_true_of_mem (h x (List.mem_cons_self x xs))
      simp only [hx, Bool.not_true, Bool.false_eq_true, if_false]
      exact ih (fun c hc => h c (List.mem_cons_of_mem x hc))

/-- Appending a column set already covered by the accumulator is a no-op. -/
theorem appendNew_subset (L cs : List String) (h : ∀ c ∈ cs, c ∈ L) :
    appendNew L cs = L := by
  rw [appendNew, filter_not_contains L cs h, List.append_nil]

/-- The first frame's columns seed the outer-join column accumulator. -/
theorem appendNew_nil_acc (cs : List String) : appendNew [] cs = cs := by
  rw [appendNew, List.nil_append]
  exact List.filter_eq_self.mpr (fun c _ => rfl)

/-- When every frame shares the same header, the outer join keeps it. -/
theorem concatCols_const (L : List String) :
    ∀ (fs : List Frame), fs ≠ [] → (∀ f ∈ fs, f.cols = L) →
      concatCols fs = L := by
  have haux : ∀ (fs : List Frame), (∀ f ∈ fs, f.cols = L) →
      fs.foldl (fun acc f => appendNew acc f.cols) L = L := by
    intro fs
    induction fs with
    | nil => intro _; rfl
    | cons f rest ih =>
        intro h
        rw [List.foldl_cons, h f (List.mem_cons_self f rest),
          appendNew_subset L L (fun c hc => hc)]
        exact ih (fun g hg => h g (List.mem_cons_of_mem f hg))
  intro fs hne h
  obtain ⟨f, rest, rfl⟩ := List.exists_cons_of_ne_nil hne
  rw [concatCols, List.foldl_cons, appendNew_nil_acc,
    h f (List.mem_cons_self f rest)]
  exact haux rest (fun g hg => h g (List.mem_cons_of_mem f hg))

/-- Dropping the empty frames (all having a non-empty header) does not
change the concatenated rows. -/
theorem flatten_filter_rows (fs : List Frame) (h : ∀ f ∈ fs, f.cols ≠ []) :
    ((fs.filter (fun f => !f.isEmpty)).map (fun f => f.rows)).flatten =
      (fs.map (fun f => f.rows)).flatten := by
  induction fs with
  | nil => rfl
  | cons f rest ih =>
      rw [List.filter_cons]
      cases hb : (!f.isEmpty) with
      | true =>
          simp only [if_true]
          rw [List.map_cons, List.map_cons, List.flatten_cons, List.flatten_cons,
            ih (fun g hg => h g (List.mem_cons_of_mem f hg))]
      | false =>
          have hemp : f.isEmpty = true := by
            revert hb; cases f.isEmpty <;> simp
          have hrows : f.rows = [] := by
            rw [Frame.isEmpty] at hemp
            rcases Bool.or_eq_true_iff.mp hemp with hemp | hemp
            · exact List.isEmpty_iff.mp hemp
            · exact absurd (List.isEmpty_iff.mp hemp)
                (h f (List.mem_cons_self f rest))
          simp only [Bool.false_eq_true, if_false]
          rw [List.map_cons, List.flatten_cons, hrows, List.nil_append]
          exact ih (fun g hg => h g (List.mem_cons_of_mem f hg))

/-- Lines 348-352: in intersection mode every stored frame is replaced by
its `Origin`-tagged reindexing to the sorted intersection plus `Origin`. -/
theorem concatStep_inter_mapping (m : List (String × Frame))
    (hOr : ∀ p ∈ m, "Origin" ∉ p.2.cols)
    (hwf : ∀ p ∈ m, Frame.wf p.2) :
    (concatStep false m).1 = m.map (fun p =>
      (p.1, Frame.mk (interCols (m.map (fun q => q.2)) ++ ["Origin"])
        (p.2.rows.map (fun r =>
          (interCols (m.map (fun q => q.2))).map (fun c => p.2.getCell r c) ++
            [Cell.val p.1])))) := by
  have hstep : (concatStep false m).1 = m.map (fun p =>
      (p.1, ((p.2).setCol "Origin" (Cell.val p.1)).reindex
        (interCols (m.map (fun q => q.2)) ++ ["Origin"]))) := by
    simp [concatStep]
  rw [hstep]
  refine List.map_congr_left ?_
  intro p hp
  refine congrArg (fun fr => (p.1, fr)) ?_
  refine setCol_reindex_eq p.2 (interCols (m.map (fun q => q.2)))
    (Cell.val p.1) (hOr p hp) (hwf p hp) ?_
  intro c hc
  exact interCols_mem (m.map (fun q => q.2)) c hc p.2
    (List.mem_map_of_mem (fun q => q.2) hp)

/-- C8: in intersection mode (with Origin columns fresh, well-formed frames
and at least one non-empty frame) the concatenated output's header is the
sorted intersection plus `Origin`, its rows are the frames' rows in mapping
order each ending in the `Origin` cell holding that row's source key, and
the row count is the sum of the input frames' row counts. -/
theorem concat_intersection_origin_rows (m : List (String × Frame))
    (hOr : ∀ p ∈ m, "Origin" ∉ p.2.cols)
    (hwf : ∀ p ∈ m, Frame.wf p.2)
    (hrow : ∃ p ∈ m, p.2.rows ≠ []) :
    ∃ out, (concatStep false m).2 = Except.ok out ∧
      out.cols = interCols (m.map (fun q => q.2)) ++ ["Origin"] ∧
      out.rows = (m.map (fun p => p.2.rows.map (fun r =>
        (interCols (m.map (fun q => q.2))).map (fun c => p.2.getCell r c) ++
          [Cell.val p.1]))).flatten ∧
      out.rows.length = (m.map (fun p => p.2.rows.length)).sum := by
  obtain ⟨p₀, hp₀, hp₀r⟩ := hrow
  have hstep2 : (concatStep false m).2 =
      concatFrames ((((concatStep false m).1).map (fun p => p.2)).filter
        (fun f => !f.isEmpty)) := by
    simp [concatStep]
  rw [concatStep_inter_mapping m hOr hwf, List.map_map] at hstep2
  have hcolsfs : ∀ f ∈ m.map ((fun p => p.2) ∘ (fun p =>
      (p.1, Frame.mk (interCols (m.map (fun q => q.2)) ++ ["Origin"])
        (p.2.rows.map (fun r =>
          (interCols (m.map (fun q => q.2))).map (fun c => p.2.getCell r c) ++
            [Cell.val p.1]))))),
      f.cols = interCols (m.map (fun q => q.2)) ++ ["Origin"] := by
    intro f hf
    obtain ⟨p, hp, rfl⟩ := List.mem_map.mp hf
    rfl
  have hLne : interCols (m.map (fun q => q.2)) ++ ["Origin"] ≠ [] := by simp
  have hOrT : "Origin" ∉ interCols (m.map (fun q => q.2)) := by
    intro hc
    exact hOr p₀ hp₀ (interCols_mem _ "Origin" hc p₀.2
      (List.mem_map_of_mem (fun q => q.2) hp₀))
  have hLnd : (interCols (m.map (fun q => q.2)) ++ ["Origin"]).Nodup := by
    refine (interCols_nodup _).append (List.nodup_singleton _) ?_
    intro x hxT hxO
    rw [List.mem_singleton.mp hxO] at hxT
    exact hOrT hxT
  have hwfF : ∀ f ∈ m.map ((fun p => p.2) ∘ (fun p =>
      (p.1, Frame.mk (interCols (m.map (fun q => q.2)) ++ ["Origin"])
        (p.2.rows.map (fun r =>
          (interCols (m.map (fun q => q.2))).map (fun c => p.2.getCell r c) ++
            [Cell.val p.1]))))),
      Frame.wf f := by
    intro f hf
    obtain ⟨p, hp, rfl⟩ := List.mem_map.mp hf
    intro r hr
    obtain ⟨r₀, hr₀, rfl⟩ := List.mem_map.mp hr
    simp
  have hmemS : Frame.mk (interCols (m.map (fun q => q.2)) ++ ["Origin"])
      (p₀.2.rows.map (fun r =>
        (interCols (m.map (fun q => q.2))).map (fun c => p₀.2.getCell r c) ++
          [Cell.val p₀.1])) ∈
      (m.map ((fun p => p.2) ∘ (fun p =>
        (p.1, Frame.mk (interCols (m.map (fun q => q.2)) ++ ["Origin"])
          (p.2.rows.map (fun r =>
            (interCols (m.map (fun q => q.2))).map (fun c => p.2.getCell r c) ++
              [Cell.val p.1])))))).filter (fun f => !f.isEmpty) := by
    rw [List.mem_filter]
    constructor
    · exact List.mem_map_of_mem _ hp₀
    · simp [Frame.isEmpty, hp₀r, hLne]
  have hSne := List.ne_nil_of_mem hmemS
  have hScols : ∀ f ∈ (m.map ((fun p => p.2) ∘ (fun p =>
      (p.1, Frame.mk (interCols (m.map (fun q => q.2)) ++ ["Origin"])
        (p.2.rows.map (fun r =>
          (interCols (m.map (fun q => q.2))).map (fun c => p.2.getCell r c) ++
            [Cell.val p.1])))))).filter (fun f => !f.isEmpty),
      f.cols = interCols (m.map (fun q => q.2)) ++ ["Origin"] :=
    fun f hf => hcolsfs f (List.mem_of_mem_filter hf)
  have hccols := concatCols_const (interCols (m.map (fun q => q.2)) ++ ["Origin"])
    _ hSne hScols
  have hconcat : concatFrames ((m.map ((fun p => p.2) ∘ (fun p =>
      (p.1, Frame.mk (interCols (m.map (fun q => q.2)) ++ ["Origin"])
        (p.2.rows.map (fun r =>
          (interCols (m.map (fun q => q.2))).map (fun c => p.2.getCell r c) ++
            [Cell.val p.1])))))).filter (fun f => !f.isEmpty)) =
      Except.ok ⟨interCols (m.map (fun q => q.2)) ++ ["Origin"],
        (m.map (fun p => p.2.rows.map (fun r =>
          (interCols (m.map (fun q => q.2))).map (fun c => p.2.getCell r c) ++
            [Cell.val p.1]))).flatten⟩ := by
    rw [concatFrames, if_neg (by simp [hSne])]
    refine congrArg Except.ok ?_
    rw [hccols]
    refine congrArg₂ Frame.mk rfl ?_
    have hre : ∀ f ∈ (m.map ((fun p => p.2) ∘ (fun p =>
        (p.1, Frame.mk (interCols (m.map (fun q => q.2)) ++ ["Origin"])
          (p.2.rows.map (fun r =>
            (interCols (m.map (fun q => q.2))).map (fun c => p.2.getCell r c) ++
              [Cell.val p.1])))))).filter (fun f => !f.isEmpty),
        (f.reindex (interCols (m.map (fun q => q.2)) ++ ["Origin"])).rows =
          f.rows := by
      intro f hf
      have hfc := hScols f hf
      rw [show interCols (m.map (fun q => q.2)) ++ ["Origin"] = f.cols from
        hfc.symm]
      rw [reindex_id f (hfc ▸ hLnd)
        (hwfF f (List.mem_of_mem_filter hf))]
    rw [List.map_congr_left hre]
    rw [flatten_filter_rows _ (fun f hf => by rw [hcolsfs f hf]; exact hLne)]
    rw [List.map_map]
    rfl
  refine ⟨_, hstep2.trans hconcat, rfl, rfl, ?_⟩
  rw [List.length_flatten, List.map_map]
  refine congrArg List.sum (List.map_congr_left ?_)
  intro p hp
  simp

/-- C8 counterexample: when every input frame is empty the reducer does not
return an empty frame with the target column set — `pd.concat` of no
objects raises `ValueError`. -/
theorem concat_all_empty_raises :
    (concatStep false
      [("k1", Frame.mk ["a"] []), ("k2", Frame.mk ["a"] [])]).2 =
      Except.error PyErr.valueError := by
  rfl

/-- C8 witness: two one-row frames with a shared column concatenate into two
rows. -/
theorem concat_intersection_origin_rows_witness :
    ∃ out, (concatStep false
        [("k1", Frame.mk ["b", "a"] [[Cell.val "1", Cell.val "2"]]),
         ("k2", Frame.mk ["a"] [[Cell.val "3"]])]).2 = Except.ok out ∧
      out.rows.length = 2 := by
  obtain ⟨out, h1, _, _, h4⟩ := concat_intersection_origin_rows
    [("k1", Frame.mk ["b", "a"] [[Cell.val "1", Cell.val "2"]]),
     ("k2", Frame.mk ["a"] [[Cell.val "3"]])]
    (by decide) (by decide)
    ⟨("k1", Frame.mk ["b", "a"] [[Cell.val "1", Cell.val "2"]]),
      by decide, by decide⟩
  exact ⟨out, h1, by rw [h4]; rfl⟩

/-- C9 counterexample: with `use_union` true the frames are *not* reindexed
to the sorted union before concatenation — the stored mapping is returned
untouched, and the concatenated output's header is the first-appearance
union `["b", "a"]`, not the computed sorted union `["a", "b"]`. -/
theorem concat_union_not_reindexed :
    (concatStep true
        [("k1", Frame.mk ["b"] [[Cell.val "1"]]),
         ("k2", Frame.mk ["a"] [[Cell.val "2"]])]).1 =
      [("k1", Frame.mk ["b"] [[Cell.val "1"]]),
       ("k2", Frame.mk ["a"] [[Cell.val "2"]])] ∧
    unionColsSorted [Frame.mk ["b"] [[Cell.val "1"]],
      Frame.mk ["a"] [[Cell.val "2"]]] = ["a", "b"] ∧
    (concatStep true
        [("k1", Frame.mk ["b"] [[Cell.val "1"]]),
         ("k2", Frame.mk ["a"] [[Cell.val "2"]])]).2 =
      Except.ok (Frame.mk ["b", "a"]
        [[Cell.val "1", Cell.na], [Cell.na, Cell.val "2"]]) := by
  refine ⟨rfl, by decide, rfl⟩

/-- Every column of the outer-join header comes from some frame. -/
theorem mem_foldl_appendNew (c : String) :
    ∀ (fs : List Frame) (acc : List String),
      c ∈ fs.foldl (fun a f => appendNew a f.cols) acc →
      c ∈ acc ∨ ∃ f ∈ fs, c ∈ f.cols := by
  intro fs
  induction fs with
  | nil => intro acc h; exact Or.inl h
  | cons f rest ih =>
      intro acc h
      rw [List.foldl_cons] at h
      rcases ih _ h with h' | ⟨g, hg, hgc⟩
      · rw [appendNew] at h'
        rcases List.mem_append.mp h' with h'' | h''
        · exact Or.inl h''
        · exact Or.inr ⟨f, List.mem_cons_self f rest,
            List.mem_of_mem_filter h''⟩
      · exact Or.inr ⟨g, List.mem_cons_of_mem f hg, hgc⟩

/-- Dropping empty frames (with non-empty headers) keeps the total row
count. -/
theorem sum_rows_filter (fs : List Frame) (h : ∀ f ∈ fs, f.cols ≠ []) :
    ((fs.filter (fun f => !f.isEmpty)).map (fun f => f.rows.length)).sum =
      (fs.map (fun f => f.rows.length)).sum := by
  induction fs with
  | nil => rfl
  | cons f rest ih =>
      rw [List.filter_cons]
      cases hb : (!f.isEmpty) with
      | true =>
          simp only [if_true]
          rw [List.map_cons, List.map_cons, List.sum_cons, List.sum_cons,
            ih (fun g hg => h g (List.mem_cons_of_mem f hg))]
      | false =>
          have hemp : f.isEmpty = true := by revert hb; cases f.isEmpty <;> simp
          have hrows : f.rows = [] := by
            rw [Frame.isEmpty] at hemp
            rcases Bool.or_eq_true_iff.mp hemp with hemp | hemp
            · exact List.isEmpty_iff.mp hemp
            · exact absurd (List.isEmpty_iff.mp hemp)
                (h f (List.mem_cons_self f rest))
          simp only [Bool.false_eq_true, if_false]
          rw [List.map_cons, List.sum_cons, hrows,
            ih (fun g hg => h g (List.mem_cons_of_mem f hg))]
          simp

/-- C9 (amended): with `use_union` true the sorted union is computed but
never applied — the stored mapping is passed through unchanged, and the
concatenation outer-joins the non-empty frames: its header is the
first-appearance union of their columns, no `Origin` column appears (when
none of the inputs has one), and the row count is the sum of the frames'
row counts. -/
theorem concat_union_passthrough (m : List (String × Frame))
    (hcols : ∀ p ∈ m, p.2.cols ≠ [])
    (hOr : ∀ p ∈ m, "Origin" ∉ p.2.cols)
    (hrow : ∃ p ∈ m, p.2.rows ≠ []) :
    (concatStep true m).1 = m ∧
    ∃ out, (concatStep true m).2 = Except.ok out ∧
      out.cols =
        concatCols ((m.map (fun p => p.2)).filter (fun f => !f.isEmpty)) ∧
      "Origin" ∉ out.cols ∧
      out.rows.length = (m.map (fun p => p.2.rows.length)).sum := by
  obtain ⟨p₀, hp₀, hp₀r⟩ := hrow
  have hmemS : p₀.2 ∈ (m.map (fun p => p.2)).filter (fun f => !f.isEmpty) := by
    rw [List.mem_filter]
    refine ⟨List.mem_map_of_mem (fun p => p.2) hp₀, ?_⟩
    simp [Frame.isEmpty, hp₀r, hcols p₀ hp₀]
  have hSne := List.ne_nil_of_mem hmemS
  have hstep2 : (concatStep true m).2 =
      concatFrames ((m.map (fun p => p.2)).filter (fun f => !f.isEmpty)) := by
    simp [concatStep]
  have hconcat : concatFrames
      ((m.map (fun p => p.2)).filter (fun f => !f.isEmpty)) =
      Except.ok ⟨concatCols
          ((m.map (fun p => p.2)).filter (fun f => !f.isEmpty)),
        (((m.map (fun p => p.2)).filter (fun f => !f.isEmpty)).map
          (fun f => (f.reindex (concatCols
            ((m.map (fun p => p.2)).filter (fun f => !f.isEmpty)))).rows)).flatten⟩ := by
    rw [concatFrames, if_neg (by simp [hSne])]
  refine ⟨by simp [concatStep], ⟨_, hstep2.trans hconcat, rfl, ?_, ?_⟩⟩
  · intro hc
    rcases mem_foldl_appendNew "Origin" _ [] hc with hc' | ⟨f, hf, hfc⟩
    · cases hc'
    · obtain ⟨p, hp, rfl⟩ := List.mem_map.mp (List.mem_of_mem_filter hf)
      exact hOr p hp hfc
  · rw [List.length_flatten, List.map_map]
    have hlen1 : (((m.map (fun p => p.2)).filter (fun f => !f.isEmpty)).map
        (List.length ∘ fun f => (f.reindex (concatCols
          ((m.map (fun p => p.2)).filter (fun f => !f.isEmpty)))).rows)) =
        (((m.map (fun p => p.2)).filter (fun f => !f.isEmpty)).map
          (fun f => f.rows.length)) := by
      refine List.map_congr_left ?_
      intro f hf
      simp [Frame.reindex]
    rw [hlen1, sum_rows_filter _ (fun f hf => by
      obtain ⟨p, hp, rfl⟩ := List.mem_map.mp hf
      exact hcols p hp), List.map_map]
    rfl

/-- C9 witness: two disjoint-column one-row frames pass through unchanged
and concatenate to two rows without an `Origin` column. -/
theorem concat_union_passthrough_witness :
    (concatStep true
        [("k1", Frame.mk ["b"] [[Cell.val "1"]]),
         ("k2", Frame.mk ["a"] [[Cell.val "2"]])]).1 =
      [("k1", Frame.mk ["b"] [[Cell.val "1"]]),
       ("k2", Frame.mk ["a"] [[Cell.val "2"]])] ∧
    ∃ out, (concatStep true
        [("k1", Frame.mk ["b"] [[Cell.val "1"]]),
         ("k2", Frame.mk ["a"] [[Cell.val "2"]])]).2 = Except.ok out ∧
      "Origin" ∉ out.cols ∧ out.rows.length = 2 := by
  obtain ⟨h1, out, h2, _, h4, h5⟩ := concat_union_passthrough
    [("k1", Frame.mk ["b"] [[Cell.val "1"]]),
     ("k2", Frame.mk ["a"] [[Cell.val "2"]])]
    (by decide) (by decide)
    ⟨("k1", Frame.mk ["b"] [[Cell.val "1"]]), by decide, by decide⟩
  exact ⟨h1, out, h2, h4, by rw [h5]; rfl⟩

/-- C10: requesting intersection-mode concatenation of two or more frames
mutates the stored mapping itself — every exposed value becomes its frame
reindexed to the sorted column intersection with an appended `Origin`
column holding its own key, so each stored frame now carries an `Origin`
column. -/
theorem concat_mutates_stored_frames (m : List (String × Frame))
    (hlen : 2 ≤ m.length)
    (hOr : ∀ p ∈ m, "Origin" ∉ p.2.cols)
    (hwf : ∀ p ∈ m, Frame.wf p.2) :
    (concatStep false m).1 = m.map (fun p =>
      (p.1, Frame.mk (interCols (m.map (fun q => q.2)) ++ ["Origin"])
        (p.2.rows.map (fun r =>
          (interCols (m.map (fun q => q.2))).map (fun c => p.2.getCell r c) ++
            [Cell.val p.1])))) ∧
    ∀ p ∈ (concatStep false m).1, "Origin" ∈ p.2.cols := by
  refine ⟨concatStep_inter_mapping m hOr hwf, ?_⟩
  intro p hp
  rw [concatStep_inter_mapping m hOr hwf] at hp
  obtain ⟨q, hq, rfl⟩ := List.mem_map.mp hp
  simp

/-- C10 witness: after intersection-mode concatenation the two stored
frames are the tagged reindexed ones. -/
theorem concat_mutates_stored_frames_witness :
    (concatStep false
        [("k1", Frame.mk ["b", "a"] [[Cell.val "1", Cell.val "2"]]),
         ("k2", Frame.mk ["a"] [[Cell.val "3"]])]).1 =
      [("k1", Frame.mk ["a", "Origin"] [[Cell.val "2", Cell.val "k1"]]),
       ("k2", Frame.mk ["a", "Origin"] [[Cell.val "3", Cell.val "k2"]])] := by
  have h := (concat_mutates_stored_frames
    [("k1", Frame.mk ["b", "a"] [[Cell.val "1", Cell.val "2"]]),
     ("k2", Frame.mk ["a"] [[Cell.val "3"]])]
    (by decide) (by decide) (by decide)).1
  rw [h]
  rfl
